import Mathlib

/-!
Verification development for `climate_fairness_analysis.py`.

The script is a linear pandas/sklearn pipeline over per-country records:
`load_and_merge` (read three CSVs, filter to one year, inner-join on country,
drop missing rows) → `normalize` (min-max and z-score columns) → `compute_cfi`
(fairness score, descending rank, decile via quantile cuts) →
`cluster_countries` (k-means on the z-scored features) → visualizations.

Shallow embedding conventions:
* A DataFrame is a `List` of row structures; adding columns is modelled by a
  structure extension, so each stage maps rows of one structure to rows of the
  extended structure.  In-place column assignment in pandas is modelled by the
  stage returning the enlarged rows.
* Python floats are modelled as exact rationals `ℚ`; the float literal `1e-6`
  is modelled as `1 / 1000000`.  A missing value (`NaN` after an outer
  operation, or an absent column) is modelled as `Option ℚ` with `none`.
* `pd.qcut` raises `ValueError` on duplicate bin edges; fallible stages return
  `Except String _`.
* The square root taken inside sklearn's `StandardScaler` is a float-library
  operation with no exact rational counterpart; the embedding abstracts it as
  an explicit function parameter `sq : ℚ → ℚ`.  No claim depends on the
  numeric value of a z-score.
-/

namespace ClimateFairness

/- Batteries marks the rational operations irreducible, which blocks `decide`
from evaluating the embedded pipeline on concrete frames; restore the
definitional transparency locally for this development. -/
attribute [local semireducible] Rat.add Rat.mul Rat.inv Rat.sub

/-- One row of one of the three input CSV files: a country, a year and the
single indicator value of that file (`none` models a missing/NaN cell). -/
structure RawRecord where
  country : String
  year : ℤ
  value : Option ℚ
deriving DecidableEq, Repr

/-- A row of the merged DataFrame returned by `load_and_merge`
(line 55-57 of the script): the join key plus the three indicator columns.
`latitude`/`longitude` model the columns of the same names, which no stage of
the pipeline ever creates, hence `Option ℚ` (absent column = `none`). -/
structure MergedRow where
  country : String
  co2_per_capita : ℚ
  extreme_poverty_share : ℚ
  revenue_gap_pct : ℚ
  latitude : Option ℚ
  longitude : Option ℚ
deriving DecidableEq, Repr

/-- A merged row after `normalize` added the six scaled columns (lines 67-72). -/
structure NormRow extends MergedRow where
  co2_mm : ℚ
  poverty_mm : ℚ
  revenue_mm : ℚ
  co2_z : ℚ
  poverty_z : ℚ
  revenue_z : ℚ
deriving DecidableEq, Repr

/-- A normalized row after `compute_cfi` added score, rank and decile
(lines 81-83).  `CFI_rank` is rational because pandas average ranks are
half-integers on ties. -/
structure CfiRow extends NormRow where
  CFI : ℚ
  CFI_rank : ℚ
  CFI_decile : ℕ
deriving DecidableEq, Repr

/-- A row after `cluster_countries` added the cluster id and its label
(lines 92-100); ids outside the hard-coded name map get `none` (pandas
`Series.map` yields NaN there). -/
structure ClusterRow extends CfiRow where
  cluster : ℕ
  cluster_label : Option String
deriving DecidableEq, Repr

/-! ### Loader / merger (`load_and_merge`, lines 34-57) -/

/-- `ds['year'].max()` — maximum year of one input file.  Empty input files
make pandas produce NaN and are outside the modelled domain; the fold default
is never reached on the inputs the claims quantify over. -/
def maxYear (ds : List RawRecord) : ℤ :=
  (ds.map RawRecord.year).foldl max 0

/-- Python `latest_year or max_common` (line 47): `None` and `0` are both
falsy, so either selects `max_common`. -/
def pyYearOr : Option ℤ → ℤ → ℤ
  | none, m => m
  | some y, m => if y = 0 then m else y

/-- The year the pipeline settles on: `latest_year or
min(co2.year.max(), poverty.year.max(), revenue.year.max())` (lines 46-47). -/
def selectedYear (co2 poverty revenue : List RawRecord) (latest_year : Option ℤ) : ℤ :=
  pyYearOr latest_year (min (maxYear co2) (min (maxYear poverty) (maxYear revenue)))

/-- `ds[ds['year'] == y][['country', value]]` — filter one input file to the
selected year and keep the key and the indicator column (lines 50-52). -/
def filterYear (ds : List RawRecord) (y : ℤ) : List (String × Option ℚ) :=
  (ds.filter (fun r => decide (r.year = y))).map (fun r => (r.country, r.value))

/-- Pandas inner `merge` on the `country` key (line 55): each left row is
paired with every right row carrying the same key, in left-then-right order. -/
def pdMerge {α β : Type} (A : List (String × α)) (B : List (String × β)) :
    List (String × α × β) :=
  A.flatMap (fun a => (B.filter (fun b => decide (b.1 = a.1))).map (fun b => (a.1, a.2, b.2)))

/-- `df.dropna()` (line 56) on the three-way merged table: keep exactly the
rows whose three indicator cells are all present, packaging them as
`MergedRow`s.  The merged frame has no latitude/longitude columns, hence
`none` in both fields. -/
def dropna (l : List (String × (Option ℚ × Option ℚ) × Option ℚ)) : List MergedRow :=
  l.filterMap (fun r =>
    match r with
    | (c, (some a, some b), some d) =>
        some { country := c, co2_per_capita := a, extreme_poverty_share := b,
               revenue_gap_pct := d, latitude := none, longitude := none }
    | _ => none)

/-- `load_and_merge` (lines 34-57): select the year, filter each file to it,
inner-join the three on `country`, drop rows with missing cells.  The three
lists stand for the parsed contents of the three CSV files. -/
def load_and_merge (co2 poverty revenue : List RawRecord) (latest_year : Option ℤ) :
    List MergedRow × ℤ :=
  let year := selectedYear co2 poverty revenue latest_year
  let co2_y := filterYear co2 year
  let pov_y := filterYear poverty year
  let rev_y := filterYear revenue year
  (dropna (pdMerge (pdMerge co2_y pov_y) rev_y), year)

/-! ### Normalizer (`normalize`, lines 60-73) -/

/-- Column minimum (empty columns are outside the modelled domain:
sklearn scalers raise on empty input). -/
def colMin : List ℚ → ℚ
  | [] => 0
  | x :: xs => xs.foldl min x

/-- Column maximum. -/
def colMax : List ℚ → ℚ
  | [] => 0
  | x :: xs => xs.foldl max x

/-- sklearn `MinMaxScaler` applied to one column: `(v - min) / (max - min)`,
except that a zero data range is replaced by 1 (sklearn's
`_handle_zeros_in_scale`), so a constant column is mapped to all zeros rather
than dividing by zero. -/
def minmaxScale (xs : List ℚ) (v : ℚ) : ℚ :=
  let mn := colMin xs
  let mx := colMax xs
  let range := if mx - mn = 0 then 1 else mx - mn
  (v - mn) / range

/-- Column mean, as computed by sklearn `StandardScaler`. -/
def listMean (xs : List ℚ) : ℚ := xs.sum / (xs.length : ℚ)

/-- Population variance (`ddof = 0`), as computed by sklearn `StandardScaler`. -/
def listVar (xs : List ℚ) : ℚ :=
  ((xs.map (fun x => (x - listMean xs) ^ 2)).sum) / (xs.length : ℚ)

/-- sklearn `StandardScaler` applied to one column: `(v - mean) / std` where
`std = sqrt(var)` is taken by the floating-point library, abstracted here as
the parameter `sq`; a zero standard deviation is replaced by 1
(`_handle_zeros_in_scale`). -/
def zscoreScale (sq : ℚ → ℚ) (xs : List ℚ) (v : ℚ) : ℚ :=
  let sd := sq (listVar xs)
  (v - listMean xs) / (if sd = 0 then 1 else sd)

/-- `normalize` (lines 60-73): add the three min-max columns and the three
z-score columns, each fitted on the corresponding raw column of the whole
frame; every other cell of every row is untouched. -/
def normalize (sq : ℚ → ℚ) (df : List MergedRow) : List NormRow :=
  let co2s := df.map MergedRow.co2_per_capita
  let povs := df.map MergedRow.extreme_poverty_share
  let revs := df.map MergedRow.revenue_gap_pct
  df.map (fun r =>
    { toMergedRow := r
      co2_mm := minmaxScale co2s r.co2_per_capita
      poverty_mm := minmaxScale povs r.extreme_poverty_share
      revenue_mm := minmaxScale revs r.revenue_gap_pct
      co2_z := zscoreScale sq co2s r.co2_per_capita
      poverty_z := zscoreScale sq povs r.extreme_poverty_share
      revenue_z := zscoreScale sq revs r.revenue_gap_pct })

/-! ### Index computer (`compute_cfi`, lines 76-84) -/

/-- Line 81: `(poverty_mm * revenue_mm) / (co2_mm + epsilon)` with
`epsilon = 1e-6`. -/
def cfiVal (r : NormRow) : ℚ :=
  let epsilon : ℚ := 1 / 1000000
  r.poverty_mm * r.revenue_mm / (r.co2_mm + epsilon)

/-- Pandas `Series.rank(ascending=False)` with the default `method='average'`:
the rank of `v` is the count of strictly larger entries plus the average
position inside its tie block, i.e. `#(> v) + (#(= v) + 1) / 2`. -/
def rankDesc (xs : List ℚ) (v : ℚ) : ℚ :=
  ((xs.countP (fun x => decide (v < x)) : ℚ)) +
    (((xs.countP (fun x => decide (x = v)) : ℚ)) + 1) / 2

/-- Ascending sort of a column, as numpy/pandas sort it before taking
quantiles. -/
def sortAsc (xs : List ℚ) : List ℚ := List.insertionSort (· ≤ ·) xs

/-- The sorted position `⌊(j/10) * (n-1)⌋` that pandas' linear-interpolation
quantile reads from, for the cut at probability `j / 10` over an `n`-row
column. -/
def quantileIdx (n j : ℕ) : ℕ :=
  (⌊(j : ℚ) * ((n : ℚ) - 1) / 10⌋).toNat

/-- Pandas `Series.quantile` with the default linear interpolation, at the
probability `j / 10`: with `h = (j/10) * (n-1)`, interpolate between the
sorted entries at positions `⌊h⌋` and `⌊h⌋ + 1`. -/
def decileEdge (s : List ℚ) (j : ℕ) : ℚ :=
  let h : ℚ := (j : ℚ) * ((s.length : ℚ) - 1) / 10
  let i : ℕ := quantileIdx s.length j
  let lo := s.getD i 0
  let hi := s.getD (i + 1) lo
  lo + (h - (i : ℚ)) * (hi - lo)

/-- The 11 bin edges `pd.qcut(xs, 10)` computes: the quantiles of `xs` at
`0, 0.1, ..., 1`. -/
def qcutEdges (xs : List ℚ) : List ℚ :=
  (List.range 11).map (decileEdge (sortAsc xs))

/-- Whether a list is strictly increasing; `pd.qcut` demands this of its bin
edges (`duplicates='raise'` is the default) and raises `ValueError` otherwise. -/
def strictIncr : List ℚ → Bool
  | [] => true
  | [_] => true
  | a :: b :: rest => decide (a < b) && strictIncr (b :: rest)

/-- The bin index `pd.cut` assigns `v` given the edges: `searchsorted` with
`side='left'` minus one, with values equal to the lowest edge pulled into the
first bin (`include_lowest`). -/
def qcutIndex (edges : List ℚ) (v : ℚ) : ℕ :=
  if (edges.takeWhile (fun e => decide (e < v))).length = 0 then 0
  else (edges.takeWhile (fun e => decide (e < v))).length - 1

/-- Annotate one row with its score, rank and decile, given the whole CFI
column and the qcut edges. -/
def cfiAnnotate (cfis edges : List ℚ) (r : NormRow) : CfiRow :=
  { toNormRow := r
    CFI := cfiVal r
    CFI_rank := rankDesc cfis (cfiVal r)
    CFI_decile := qcutIndex edges (cfiVal r) + 1 }

/-- `compute_cfi` (lines 76-84): add the `CFI` column, its descending average
rank, and `pd.qcut(df['CFI'], 10, labels=False) + 1`.  When the ten-quantile
bin edges of the CFI column are not pairwise distinct, `pd.qcut` raises
`ValueError`, modelled as the error branch. -/
def compute_cfi (df : List NormRow) : Except String (List CfiRow) :=
  let cfis := df.map cfiVal
  let edges := qcutEdges cfis
  if strictIncr edges then Except.ok (df.map (cfiAnnotate cfis edges))
  else Except.error "Bin edges must be unique"

/-- The rows `compute_cfi` yields on success, and `[]` on the `ValueError`
branch; convenience accessor for stating concrete evaluations. -/
def cfiRows (df : List NormRow) : List CfiRow :=
  match compute_cfi df with
  | Except.ok l => l
  | Except.error _ => []

/-! ### Clusterer (`cluster_countries`, lines 87-101) -/

/-- Squared euclidean distance on the three z-score coordinates. -/
def dist2 (p q : ℚ × ℚ × ℚ) : ℚ :=
  (p.1 - q.1) ^ 2 + (p.2.1 - q.2.1) ^ 2 + (p.2.2 - q.2.2) ^ 2

/-- Index of the centroid nearest to `p` (lowest index on ties). -/
def nearestIdx (cs : List (ℚ × ℚ × ℚ)) (p : ℚ × ℚ × ℚ) : ℕ :=
  (cs.enum.foldl
    (fun acc ic => if dist2 ic.2 p < acc.2 then (ic.1, dist2 ic.2 p) else acc)
    (0, dist2 (cs.headD (0, 0, 0)) p)).1

/-- A linear congruential pseudo-random step; stands in for numpy's seeded
generator in the modelled initialization below. -/
def lcgStep (s : ℕ) : ℕ := (1103515245 * s + 12345) % 2147483648

/-- Seed-determined initial centroids: `k` data points picked by iterating the
generator from the seed. -/
def initCentroids (pts : List (ℚ × ℚ × ℚ)) (k seed : ℕ) : List (ℚ × ℚ × ℚ) :=
  (List.range k).map (fun i => pts.getD (lcgStep^[i + 1] seed % max pts.length 1) (0, 0, 0))

/-- One Lloyd update: move every centroid to the mean of the points assigned
to it, keeping centroids whose cluster is empty. -/
def centroidStep (pts cs : List (ℚ × ℚ × ℚ)) : List (ℚ × ℚ × ℚ) :=
  cs.enum.map (fun jc =>
    let members := pts.filter (fun p => decide (nearestIdx cs p = jc.1))
    if members.length = 0 then jc.2
    else ((members.map (fun p => p.1)).sum / (members.length : ℚ),
          (members.map (fun p => p.2.1)).sum / (members.length : ℚ),
          (members.map (fun p => p.2.2)).sum / (members.length : ℚ)))

/-- Lloyd iteration with a fuel bound, stopping early once the centroids are
stable. -/
def lloyd (pts : List (ℚ × ℚ × ℚ)) : ℕ → List (ℚ × ℚ × ℚ) → List (ℚ × ℚ × ℚ)
  | 0, cs => cs
  | n + 1, cs =>
      let cs2 := centroidStep pts cs
      if cs2 = cs then cs else lloyd pts n cs2

/-- Modelled from the spec: `sklearn.cluster.KMeans(n_clusters,
random_state=42).fit_predict`, whose implementation is not part of this
repository.  Modelled as Lloyd's algorithm with a seed-determined
initialization (an LCG standing in for numpy's seeded RNG) and sklearn's
default iteration cap of 300.  What the claims rely on is exactly what the
spec states: the labels are a deterministic function of the data, the cluster
count and the seed, and one label is produced per input row. -/
def kmeansLabels (pts : List (ℚ × ℚ × ℚ)) (k seed : ℕ) : List ℕ :=
  let cs := lloyd pts 300 (initCentroids pts k seed)
  pts.map (nearestIdx cs)

/-- The hard-coded cluster-id-to-label dictionary (lines 94-99); `Series.map`
sends ids outside it to NaN, modelled as `none`. -/
def clusterName : ℕ → Option String
  | 0 => some "Justice Priorities"
  | 1 => some "High-Responsibility"
  | 2 => some "Transitional"
  | 3 => some "Outliers"
  | _ => none

/-- `cluster_countries` (lines 87-101): k-means with `random_state=42` on the
three z-score columns, then the label column via the name dictionary. -/
def cluster_countries (df : List CfiRow) (n_clusters : ℕ) : List ClusterRow :=
  let labels := kmeansLabels (df.map (fun r => (r.co2_z, r.poverty_z, r.revenue_z))) n_clusters 42
  (df.zip labels).map (fun rc =>
    { toCfiRow := rc.1, cluster := rc.2, cluster_label := clusterName rc.2 })

/-! ### Marker-map stage of `create_visualizations` (lines 136-149) -/

/-- The rows for which the folium loop adds a `CircleMarker`: those whose
`latitude` and `longitude` cells are both non-null (`pd.notnull` on a missing
column's `row.get` is false). -/
def markerRows (df : List ClusterRow) : List ClusterRow :=
  df.filter (fun r => r.latitude.isSome && r.longitude.isSome)

/-! ### The whole pipeline (`main`, lines 152-158) -/

/-- The data path of `main`: merge, normalize, compute the index, cluster.
The `Except` propagates `pd.qcut`'s possible `ValueError`. -/
def pipeline (sq : ℚ → ℚ) (co2 poverty revenue : List RawRecord) :
    Except String (List ClusterRow) :=
  let df := (load_and_merge co2 poverty revenue none).1
  match compute_cfi (normalize sq df) with
  | Except.ok d => Except.ok (cluster_countries d 4)
  | Except.error e => Except.error e

/-- The pipeline's annotated rows on success, `[]` on error; convenience
accessor for concrete evaluations. -/
def pipeRows (sq : ℚ → ℚ) (co2 poverty revenue : List RawRecord) : List ClusterRow :=
  match pipeline sq co2 poverty revenue with
  | Except.ok l => l
  | Except.error _ => []

/-! ### Concrete datasets used for witnesses and counterexamples -/

/-- A stand-in for the float library's square root in concrete runs; no claim
depends on its values. -/
def sqId : ℚ → ℚ := fun q => q

/-- Example CO2 input, echoing the worked example of spec section 8. -/
def exCo2 : List RawRecord :=
  [⟨"A", 2020, some 1⟩, ⟨"B", 2020, some 2⟩, ⟨"C", 2020, some 3⟩, ⟨"D", 2020, some 4⟩]

/-- Example poverty input. -/
def exPov : List RawRecord :=
  [⟨"A", 2020, some 4⟩, ⟨"B", 2020, some 3⟩, ⟨"C", 2020, some 2⟩, ⟨"D", 2020, some 1⟩]

/-- Example revenue-gap input. -/
def exRev : List RawRecord :=
  [⟨"A", 2020, some 4⟩, ⟨"B", 2020, some 3⟩, ⟨"C", 2020, some 2⟩, ⟨"D", 2020, some 1⟩]

/-- The example inputs merged. -/
def exMerged : List MergedRow := (load_and_merge exCo2 exPov exRev none).1

/-- The example inputs merged and normalized. -/
def exNorm : List NormRow := normalize sqId exMerged

/-- The example inputs taken through `compute_cfi` (which succeeds on them). -/
def exCfi : List CfiRow := cfiRows exNorm

/-- Shorthand for building a merged row by hand. -/
def mrow (c : String) (a b d : ℚ) : MergedRow :=
  { country := c, co2_per_capita := a, extreme_poverty_share := b, revenue_gap_pct := d,
    latitude := none, longitude := none }

/-- Two countries whose `co2_per_capita` column is constant (both 5). -/
def dfC2 : List MergedRow := [mrow "A" 5 1 1, mrow "B" 5 2 2]

/-- A default `NormRow`, used as the `getD`/`headD` fallback. -/
def nrow0 : NormRow :=
  { toMergedRow := mrow "" 0 0 0, co2_mm := 0, poverty_mm := 0, revenue_mm := 0,
    co2_z := 0, poverty_z := 0, revenue_z := 0 }

/-- A hand-built normalized row with the given country tag and min-max value
`v / 20` on the poverty and revenue columns and zero emissions. -/
def nrowC4 (k v : ℕ) : NormRow :=
  { toMergedRow := mrow ("c" ++ Nat.repr k) 0 0 0,
    co2_mm := 0, poverty_mm := (v : ℚ) / 20, revenue_mm := (v : ℚ) / 20,
    co2_z := 0, poverty_z := 0, revenue_z := 0 }

/-- Min-max numerators for a 21-row frame with exactly one tie (two rows at
`5 / 20`), placed so that the ten-quantile bin edges stay pairwise distinct. -/
def vListC4 : List ℕ :=
  [0, 1, 2, 3, 4, 5, 5, 7, 8, 9, 10, 11, 12, 13, 14, 15, 16, 17, 18, 19, 20]

/-- A 21-row normalized frame on which two distinct countries get the same
CFI value, hence the same average rank. -/
def dfC4 : List NormRow := vListC4.enum.map (fun kv => nrowC4 kv.1 kv.2)

/-- A default `CfiRow`, used as the `getD` fallback. -/
def crow0 : CfiRow := cfiAnnotate [] [] nrow0

/-- Ten rows whose CFI column is identically zero, making every quantile bin
edge equal. -/
def dfC5 : List NormRow := (List.range 10).map (fun k => nrowC4 k 0)

/-- A CO2 input holding two rows for country `A` in the selected year. -/
def c6co2 : List RawRecord := [⟨"A", 2020, some 1⟩, ⟨"A", 2020, some 2⟩]

/-- A poverty input with a single `A` row. -/
def c6pov : List RawRecord := [⟨"A", 2020, some 3⟩]

/-- A revenue input with a single `A` row. -/
def c6rev : List RawRecord := [⟨"A", 2020, some 4⟩]

/-! ## General lemmas about the embedded operations -/

theorem foldl_min_le_init (t : List ℚ) : ∀ a : ℚ, t.foldl min a ≤ a := by
  induction t with
  | nil => intro a; exact le_refl a
  | cons x t ih =>
      intro a
      exact le_trans (ih (min a x)) (min_le_left a x)

theorem foldl_min_le_mem {v : ℚ} {t : List ℚ} (hv : v ∈ t) :
    ∀ a : ℚ, t.foldl min a ≤ v := by
  induction t with
  | nil => cases hv
  | cons x t ih =>
      intro a
      rcases List.mem_cons.mp hv with h | h
      · subst h
        exact le_trans (foldl_min_le_init t (min a v)) (min_le_right a v)
      · exact ih h (min a x)

theorem init_le_foldl_max (t : List ℚ) : ∀ a : ℚ, a ≤ t.foldl max a := by
  induction t with
  | nil => intro a; exact le_refl a
  | cons x t ih =>
      intro a
      exact le_trans (le_max_left a x) (ih (max a x))

theorem mem_le_foldl_max {v : ℚ} {t : List ℚ} (hv : v ∈ t) :
    ∀ a : ℚ, v ≤ t.foldl max a := by
  induction t with
  | nil => cases hv
  | cons x t ih =>
      intro a
      rcases List.mem_cons.mp hv with h | h
      · subst h
        exact le_trans (le_max_right a v) (init_le_foldl_max t (max a v))
      · exact ih h (max a x)

theorem colMin_le_of_mem {v : ℚ} {xs : List ℚ} (hv : v ∈ xs) : colMin xs ≤ v := by
  cases xs with
  | nil => cases hv
  | cons x t =>
      rcases List.mem_cons.mp hv with h | h
      · subst h; exact foldl_min_le_init t v
      · exact foldl_min_le_mem h x

theorem le_colMax_of_mem {v : ℚ} {xs : List ℚ} (hv : v ∈ xs) : v ≤ colMax xs := by
  cases xs with
  | nil => cases hv
  | cons x t =>
      rcases List.mem_cons.mp hv with h | h
      · subst h; exact init_le_foldl_max t v
      · exact mem_le_foldl_max h x

theorem colMin_le_colMax {v : ℚ} {xs : List ℚ} (hv : v ∈ xs) : colMin xs ≤ colMax xs :=
  le_trans (colMin_le_of_mem hv) (le_colMax_of_mem hv)

theorem minmaxScale_nonneg {v : ℚ} {xs : List ℚ} (hv : v ∈ xs) :
    0 ≤ minmaxScale xs v := by
  unfold minmaxScale
  have hmn := colMin_le_of_mem hv
  by_cases h : colMax xs - colMin xs = 0
  · simp only [h, if_pos rfl]
    simpa using sub_nonneg.mpr hmn
  · simp only [h, if_neg h]
    have hlt : 0 < colMax xs - colMin xs :=
      lt_of_le_of_ne (sub_nonneg.mpr (colMin_le_colMax hv)) (Ne.symm h)
    exact div_nonneg (sub_nonneg.mpr hmn) (le_of_lt hlt)

theorem minmaxScale_le_one {v : ℚ} {xs : List ℚ} (hv : v ∈ xs) :
    minmaxScale xs v ≤ 1 := by
  have hmn := colMin_le_of_mem hv
  have hmx := le_colMax_of_mem hv
  simp only [minmaxScale]
  by_cases h : colMax xs - colMin xs = 0
  · rw [if_pos h]
    have hv' : v = colMin xs := le_antisymm (by linarith) hmn
    simp [hv']
  · rw [if_neg h]
    have hlt : 0 < colMax xs - colMin xs :=
      lt_of_le_of_ne (sub_nonneg.mpr (le_trans hmn hmx)) (Ne.symm h)
    rw [div_le_one hlt]
    linarith

theorem minmaxScale_min_eq_zero {xs : List ℚ} :
    minmaxScale xs (colMin xs) = 0 := by
  unfold minmaxScale
  simp

theorem minmaxScale_max_eq_one {xs : List ℚ} (h : colMin xs < colMax xs) :
    minmaxScale xs (colMax xs) = 1 := by
  unfold minmaxScale
  have hne : colMax xs - colMin xs ≠ 0 := by linarith
  simp only [if_neg hne]
  exact div_self hne

theorem minmaxScale_const_eq_zero {v : ℚ} {xs : List ℚ} (hv : v ∈ xs)
    (h : colMin xs = colMax xs) : minmaxScale xs v = 0 := by
  have hv' : v = colMin xs :=
    le_antisymm (h ▸ le_colMax_of_mem hv) (colMin_le_of_mem hv)
  rw [hv', minmaxScale_min_eq_zero]

/-- What `normalize` writes into the min-max cells of each row, and that the
raw cell it was scaled from belongs to the fitted column. -/
theorem mem_normalize_mm {sq : ℚ → ℚ} {df : List MergedRow} {r : NormRow}
    (hr : r ∈ normalize sq df) :
    r.co2_mm = minmaxScale (df.map MergedRow.co2_per_capita) r.co2_per_capita ∧
    r.co2_per_capita ∈ df.map MergedRow.co2_per_capita ∧
    r.poverty_mm = minmaxScale (df.map MergedRow.extreme_poverty_share) r.extreme_poverty_share ∧
    r.extreme_poverty_share ∈ df.map MergedRow.extreme_poverty_share ∧
    r.revenue_mm = minmaxScale (df.map MergedRow.revenue_gap_pct) r.revenue_gap_pct ∧
    r.revenue_gap_pct ∈ df.map MergedRow.revenue_gap_pct := by
  unfold normalize at hr
  rcases List.mem_map.mp hr with ⟨a, ha, rfl⟩
  refine ⟨rfl, List.mem_map_of_mem _ ha, rfl, List.mem_map_of_mem _ ha,
    rfl, List.mem_map_of_mem _ ha⟩

/-- `normalize` only adds columns: stripping them recovers the input frame. -/
theorem normalize_map_toMergedRow (sq : ℚ → ℚ) (df : List MergedRow) :
    (normalize sq df).map NormRow.toMergedRow = df := by
  unfold normalize
  rw [List.map_map]
  exact List.map_id df

/-- Success of `compute_cfi` forces the strictly-increasing edge check and
determines the output frame. -/
theorem compute_cfi_ok_eq {df : List NormRow} {out : List CfiRow}
    (h : compute_cfi df = Except.ok out) :
    out = df.map (cfiAnnotate (df.map cfiVal) (qcutEdges (df.map cfiVal))) ∧
    strictIncr (qcutEdges (df.map cfiVal)) = true := by
  unfold compute_cfi at h
  by_cases hc : strictIncr (qcutEdges (df.map cfiVal)) = true
  · rw [if_pos hc] at h
    exact ⟨(Except.ok.injEq _ _).mp h.symm, hc⟩
  · rw [if_neg hc] at h
    cases h

/-- `compute_cfi` only adds columns: stripping them recovers the input frame. -/
theorem compute_cfi_map_toNormRow {df : List NormRow} {out : List CfiRow}
    (h : compute_cfi df = Except.ok out) :
    out.map CfiRow.toNormRow = df := by
  rw [(compute_cfi_ok_eq h).1, List.map_map]
  exact List.map_id df

/-! ## Claims -/

/-- Claim C10: passing `latest_year = 0` behaves exactly like passing `None`:
Python's `latest_year or max_common` treats both as falsy, so the minimum of
the three datasets' maximum years is used, not year 0. -/
theorem claim_C10 (co2 poverty revenue : List RawRecord) :
    load_and_merge co2 poverty revenue (some 0) =
      load_and_merge co2 poverty revenue none := by
  unfold load_and_merge selectedYear pyYearOr
  simp

/-- Claim C7: two runs of `cluster_countries` on the same data (same rows in
the same order) and the same built-in seed (`random_state=42`) assign
identical cluster ids and labels to every row. -/
theorem claim_C7 (df₁ df₂ : List CfiRow) (n : ℕ) (h : df₁ = df₂) :
    cluster_countries df₁ n = cluster_countries df₂ n := by
  rw [h]

/-- Witness for C7 at the example frame. -/
theorem claim_C7_witness :
    cluster_countries exCfi 4 = cluster_countries exCfi 4 :=
  claim_C7 exCfi exCfi 4 rfl

/-- Claim C1: on success, `compute_cfi` sets every row's `CFI` cell to
`(poverty_mm * revenue_mm) / (co2_mm + 1e-6)` computed from that row's
min-max cells. -/
theorem claim_C1 (df : List NormRow) (out : List CfiRow) (i : ℕ)
    (hout : compute_cfi df = Except.ok out) (hi : i < out.length)
    (hdf : i < df.length) :
    (out.get ⟨i, hi⟩).CFI =
      (df.get ⟨i, hdf⟩).poverty_mm * (df.get ⟨i, hdf⟩).revenue_mm /
        ((df.get ⟨i, hdf⟩).co2_mm + 1 / 1000000) := by
  have he := (compute_cfi_ok_eq hout).1
  subst he
  simp [List.get_eq_getElem, List.getElem_map, cfiAnnotate, cfiVal]

/-- Witness for C1: the example frame, row 0. -/
theorem claim_C1_witness :
    (exCfi.get ⟨0, by decide⟩).CFI =
      (exNorm.get ⟨0, by decide⟩).poverty_mm * (exNorm.get ⟨0, by decide⟩).revenue_mm /
        ((exNorm.get ⟨0, by decide⟩).co2_mm + 1 / 1000000) :=
  claim_C1 exNorm exCfi 0 rfl (by decide) (by decide)

/-- Claim C3: the CFI denominator `co2_mm + 1e-6` is strictly positive on
every normalized row, because the min-max output `co2_mm` is non-negative;
the division in `compute_cfi` never divides by zero. -/
theorem claim_C3 (sq : ℚ → ℚ) (df : List MergedRow) (r : NormRow)
    (hr : r ∈ normalize sq df) : 0 < r.co2_mm + 1 / 1000000 := by
  obtain ⟨heq, hmem, -⟩ := mem_normalize_mm hr
  have h0 : 0 ≤ r.co2_mm := heq ▸ minmaxScale_nonneg hmem
  linarith

/-- Witness for C3: the first normalized example row. -/
theorem claim_C3_witness :
    exNorm.headD nrow0 ∈ normalize sqId exMerged ∧
      0 < (exNorm.headD nrow0).co2_mm + 1 / 1000000 :=
  ⟨by decide, claim_C3 sqId exMerged (exNorm.headD nrow0) (by decide)⟩

/-- Full behaviour of sklearn min-max scaling on one fitted column: outputs
lie in `[0,1]`, the minimum goes to 0, the maximum goes to 1 when the column
is not constant, and a constant column is sent entirely to 0. -/
theorem minmaxScale_spec {v : ℚ} {xs : List ℚ} (hv : v ∈ xs) :
    0 ≤ minmaxScale xs v ∧ minmaxScale xs v ≤ 1 ∧
      (v = colMin xs → minmaxScale xs v = 0) ∧
      (colMin xs < colMax xs → v = colMax xs → minmaxScale xs v = 1) ∧
      (colMin xs = colMax xs → minmaxScale xs v = 0) :=
  ⟨minmaxScale_nonneg hv, minmaxScale_le_one hv,
    fun h => by rw [h, minmaxScale_min_eq_zero],
    fun hlt h => by rw [h, minmaxScale_max_eq_one hlt],
    fun h => minmaxScale_const_eq_zero hv h⟩

/-- Counterexample to C2 as stated: in `dfC2` the `co2_per_capita` column is
constant (both cells are 5), so row 0 holds the column's maximum, yet
`normalize` writes 0 — not 1 — into its `co2_mm` cell, because sklearn's
`MinMaxScaler` replaces a zero data range by 1 instead of dividing by it. -/
theorem claim_C2_counterexample :
    (normalize sqId dfC2).headD nrow0 ∈ normalize sqId dfC2 ∧
      ((normalize sqId dfC2).headD nrow0).co2_per_capita =
        colMax (dfC2.map MergedRow.co2_per_capita) ∧
      ((normalize sqId dfC2).headD nrow0).co2_mm ≠ 1 := by
  refine ⟨by decide, by decide, by decide⟩

/-- Claim C2 (amended): for each of the three columns `normalize` min-max
scales, every scaled cell lies in `[0,1]`; a row holding the column's minimum
is mapped to 0; a row holding the column's maximum is mapped to 1 provided
the column is not constant; and on a constant column every row is mapped
to 0 (sklearn's zero-range guard), so the maximum is mapped to 0 there, not
to 1. -/
theorem claim_C2 (sq : ℚ → ℚ) (df : List MergedRow) (r : NormRow)
    (hr : r ∈ normalize sq df) :
    (0 ≤ r.co2_mm ∧ r.co2_mm ≤ 1 ∧
      (r.co2_per_capita = colMin (df.map MergedRow.co2_per_capita) → r.co2_mm = 0) ∧
      (colMin (df.map MergedRow.co2_per_capita) < colMax (df.map MergedRow.co2_per_capita) →
        r.co2_per_capita = colMax (df.map MergedRow.co2_per_capita) → r.co2_mm = 1) ∧
      (colMin (df.map MergedRow.co2_per_capita) = colMax (df.map MergedRow.co2_per_capita) →
        r.co2_mm = 0)) ∧
    (0 ≤ r.poverty_mm ∧ r.poverty_mm ≤ 1 ∧
      (r.extreme_poverty_share = colMin (df.map MergedRow.extreme_poverty_share) →
        r.poverty_mm = 0) ∧
      (colMin (df.map MergedRow.extreme_poverty_share) <
          colMax (df.map MergedRow.extreme_poverty_share) →
        r.extreme_poverty_share = colMax (df.map MergedRow.extreme_poverty_share) →
        r.poverty_mm = 1) ∧
      (colMin (df.map MergedRow.extreme_poverty_share) =
          colMax (df.map MergedRow.extreme_poverty_share) → r.poverty_mm = 0)) ∧
    (0 ≤ r.revenue_mm ∧ r.revenue_mm ≤ 1 ∧
      (r.revenue_gap_pct = colMin (df.map MergedRow.revenue_gap_pct) → r.revenue_mm = 0) ∧
      (colMin (df.map MergedRow.revenue_gap_pct) < colMax (df.map MergedRow.revenue_gap_pct) →
        r.revenue_gap_pct = colMax (df.map MergedRow.revenue_gap_pct) → r.revenue_mm = 1) ∧
      (colMin (df.map MergedRow.revenue_gap_pct) = colMax (df.map MergedRow.revenue_gap_pct) →
        r.revenue_mm = 0)) := by
  obtain ⟨hc, hcm, hp, hpm, hv, hvm⟩ := mem_normalize_mm hr
  rw [hc, hp, hv]
  exact ⟨minmaxScale_spec hcm, minmaxScale_spec hpm, minmaxScale_spec hvm⟩

/-- Witness for C2 (amended) at the example frame: row 3 holds the maximal
`co2_per_capita` of a non-constant column and is scaled to exactly 1. -/
theorem claim_C2_witness :
    exNorm.getD 3 nrow0 ∈ normalize sqId exMerged ∧ (exNorm.getD 3 nrow0).co2_mm = 1 := by
  have h := claim_C2 sqId exMerged (exNorm.getD 3 nrow0) (by decide)
  exact ⟨by decide, h.1.2.2.2.1 (by decide) (by decide)⟩

/-- One label is produced per input row of the clusterer. -/
theorem kmeansLabels_length (pts : List (ℚ × ℚ × ℚ)) (k seed : ℕ) :
    (kmeansLabels pts k seed).length = pts.length := by
  simp [kmeansLabels]

/-- `cluster_countries` only adds columns: stripping them recovers the input
frame. -/
theorem cluster_map_toCfiRow (df : List CfiRow) (n : ℕ) :
    (cluster_countries df n).map ClusterRow.toCfiRow = df := by
  unfold cluster_countries
  rw [List.map_map]
  have hlen : df.length ≤
      (kmeansLabels (df.map fun r => (r.co2_z, r.poverty_z, r.revenue_z)) n 42).length := by
    rw [kmeansLabels_length, List.length_map]
  exact List.map_fst_zip df _ hlen

/-- Claim C9: each of the three frame stages only adds columns — the number
of rows, their order, and every previously present cell (the raw indicator
columns in particular) are unchanged, as recovering the input frame by
stripping the added columns shows. -/
theorem claim_C9 :
    (∀ (sq : ℚ → ℚ) (df : List MergedRow),
        (normalize sq df).map NormRow.toMergedRow = df) ∧
    (∀ (df : List NormRow) (out : List CfiRow),
        compute_cfi df = Except.ok out → out.map CfiRow.toNormRow = df) ∧
    (∀ (df : List CfiRow) (n : ℕ),
        (cluster_countries df n).map ClusterRow.toCfiRow = df) :=
  ⟨normalize_map_toMergedRow, fun _ _ h => compute_cfi_map_toNormRow h, cluster_map_toCfiRow⟩

/-- Witness for C9: the `compute_cfi` frame condition at the example frame,
whose hypothesis `compute_cfi exNorm = Except.ok exCfi` holds by evaluation. -/
theorem claim_C9_witness :
    compute_cfi exNorm = Except.ok exCfi ∧ exCfi.map CfiRow.toNormRow = exNorm :=
  ⟨rfl, claim_C9.2.1 exNorm exCfi rfl⟩

/-- Rows surviving `dropna` carry no latitude/longitude data: the merged
frame simply has no such columns. -/
theorem mem_dropna_latlon {l : List (String × (Option ℚ × Option ℚ) × Option ℚ)}
    {m : MergedRow} (hm : m ∈ dropna l) :
    m.latitude = none ∧ m.longitude = none := by
  unfold dropna at hm
  rcases List.mem_filterMap.mp hm with ⟨x, -, hx⟩
  obtain ⟨c, ⟨oa, ob⟩, od⟩ := x
  cases oa <;> cases ob <;> cases od <;> simp_all
  obtain ⟨rfl, -⟩ := hx
  exact ⟨rfl, rfl⟩

/-- Membership transport along the `normalize` frame condition. -/
theorem mem_normalize_toMergedRow {sq : ℚ → ℚ} {df : List MergedRow} {r : NormRow}
    (hr : r ∈ normalize sq df) : r.toMergedRow ∈ df :=
  normalize_map_toMergedRow sq df ▸ List.mem_map_of_mem NormRow.toMergedRow hr

/-- Membership transport along the `compute_cfi` frame condition. -/
theorem mem_compute_cfi_toNormRow {df : List NormRow} {out : List CfiRow} {r : CfiRow}
    (h : compute_cfi df = Except.ok out) (hr : r ∈ out) : r.toNormRow ∈ df :=
  compute_cfi_map_toNormRow h ▸ List.mem_map_of_mem CfiRow.toNormRow hr

/-- Membership transport along the `cluster_countries` frame condition. -/
theorem mem_cluster_toCfiRow {df : List CfiRow} {n : ℕ} {r : ClusterRow}
    (hr : r ∈ cluster_countries df n) : r.toCfiRow ∈ df :=
  cluster_map_toCfiRow df n ▸ List.mem_map_of_mem ClusterRow.toCfiRow hr

/-- Claim C8: the folium stage adds a circle marker for a row exactly when
both its latitude and longitude cells are non-null; and since no stage of the
pipeline ever populates those columns, every country is silently skipped on
any successful pipeline run — the saved marker map holds no markers. -/
theorem claim_C8 :
    (∀ (df : List ClusterRow) (r : ClusterRow),
        r ∈ markerRows df ↔
          r ∈ df ∧ r.latitude.isSome = true ∧ r.longitude.isSome = true) ∧
    (∀ (sq : ℚ → ℚ) (co2 poverty revenue : List RawRecord) (out : List ClusterRow),
        pipeline sq co2 poverty revenue = Except.ok out → markerRows out = []) := by
  constructor
  · intro df r
    simp [markerRows, List.mem_filter, Bool.and_eq_true, and_assoc]
  · intro sq co2 poverty revenue out h
    unfold pipeline at h
    dsimp only at h
    rcases hc : compute_cfi (normalize sq (load_and_merge co2 poverty revenue none).1)
      with e | d
    · rw [hc] at h; simp at h
    · rw [hc] at h
      simp only [Except.ok.injEq] at h
      subst h
      refine List.filter_eq_nil_iff.mpr ?_
      intro r hr
      have h1 : r.toCfiRow ∈ d := mem_cluster_toCfiRow hr
      have h2 := mem_compute_cfi_toNormRow hc h1
      have h3 := mem_normalize_toMergedRow h2
      have h4 : r.toCfiRow.toNormRow.toMergedRow ∈
          dropna (pdMerge (pdMerge (filterYear co2 (selectedYear co2 poverty revenue none))
            (filterYear poverty (selectedYear co2 poverty revenue none)))
            (filterYear revenue (selectedYear co2 poverty revenue none))) := h3
      obtain ⟨hla, hlo⟩ := mem_dropna_latlon h4
      simp [hla, hlo]

/-- Witness for C8: the example pipeline run succeeds and its marker map is
empty. -/
theorem claim_C8_witness :
    pipeline sqId exCo2 exPov exRev = Except.ok (pipeRows sqId exCo2 exPov exRev) ∧
      markerRows (pipeRows sqId exCo2 exPov exRev) = [] :=
  ⟨rfl, claim_C8.2 sqId exCo2 exPov exRev (pipeRows sqId exCo2 exPov exRev) rfl⟩

/-- If some element of the list fails the predicate, `takeWhile` keeps
strictly fewer elements than the list holds. -/
theorem length_takeWhile_lt {α : Type} {p : α → Bool} {l : List α}
    (h : ∃ x ∈ l, p x = false) : (l.takeWhile p).length < l.length := by
  induction l with
  | nil => rcases h with ⟨x, hx, -⟩; cases hx
  | cons a t ih =>
      rcases h with ⟨x, hx, hpx⟩
      by_cases hpa : p a = true
      · rw [List.takeWhile_cons, if_pos hpa]
        simp only [List.length_cons]
        refine Nat.succ_lt_succ (ih ?_)
        rcases List.mem_cons.mp hx with rfl | hxt
        · rw [hpa] at hpx; cases hpx
        · exact ⟨x, hxt, hpx⟩
      · rw [List.takeWhile_cons, if_neg hpa]
        simp

/-- In a list sorted ascending, every member is bounded by the entry at the
last position. -/
theorem le_getD_last_of_sorted {s : List ℚ} (hs : List.Sorted (· ≤ ·) s) {v : ℚ}
    (hv : v ∈ s) : v ≤ s.getD (s.length - 1) 0 := by
  rcases List.mem_iff_get.mp hv with ⟨i, rfl⟩
  have hi := i.2
  have hlast : s.length - 1 < s.length := by omega
  have hgd : s.getD (s.length - 1) 0 = s.get ⟨s.length - 1, hlast⟩ := by
    simp [List.getD_eq_getElem?_getD, List.getElem?_eq_getElem hlast, List.get_eq_getElem]
  rw [hgd]
  refine hs.rel_get_of_le ?_
  rw [Fin.le_def]
  simp only []
  omega

/-- The quantile at probability 1 is the last entry of the sorted column. -/
theorem decileEdge_ten {s : List ℚ} (hne : s ≠ []) :
    decileEdge s 10 = s.getD (s.length - 1) 0 := by
  have hlen : 1 ≤ s.length := List.length_pos.mpr hne
  have h10 : ((10 : ℕ) : ℚ) * ((s.length : ℚ) - 1) / 10 = ((s.length - 1 : ℕ) : ℚ) := by
    push_cast [hlen]
    ring
  simp only [decileEdge, quantileIdx, h10, Int.floor_natCast, Int.toNat_natCast, sub_self,
    zero_mul, add_zero]

/-- Every column member is bounded by the top qcut bin edge. -/
theorem le_qcutEdges_last {xs : List ℚ} {v : ℚ} (hv : v ∈ xs) :
    v ≤ decileEdge (sortAsc xs) 10 := by
  have hvs : v ∈ sortAsc xs := (List.perm_insertionSort _ xs).mem_iff.mpr hv
  have hs : List.Sorted (· ≤ ·) (sortAsc xs) := List.sorted_insertionSort _ xs
  have hne : sortAsc xs ≠ [] := by
    intro h0
    rw [h0] at hvs
    cases hvs
  rw [decileEdge_ten hne]
  exact le_getD_last_of_sorted hs hvs

/-- A column member never lands beyond bin index 9 of the ten qcut bins. -/
theorem qcutIndex_le_nine {xs : List ℚ} {v : ℚ} (hv : v ∈ xs) :
    qcutIndex (qcutEdges xs) v ≤ 9 := by
  have hlast : decileEdge (sortAsc xs) 10 ∈ qcutEdges xs :=
    List.mem_map_of_mem _ (by simp : 10 ∈ List.range 11)
  have hnot : (decide (decileEdge (sortAsc xs) 10 < v)) = false := by
    simp only [decide_eq_false_iff_not, not_lt]
    exact le_qcutEdges_last hv
  have hlt : ((qcutEdges xs).takeWhile (fun e => decide (e < v))).length <
      (qcutEdges xs).length :=
    length_takeWhile_lt ⟨_, hlast, hnot⟩
  have hlen : (qcutEdges xs).length = 11 := by simp [qcutEdges]
  rw [hlen] at hlt
  unfold qcutIndex
  split <;> omega

/-- `strictIncr` certifies the full pairwise ordering of the edge list. -/
theorem strictIncr_pairwise : ∀ {l : List ℚ}, strictIncr l = true → l.Pairwise (· < ·) := by
  intro l
  induction l with
  | nil => intro _; exact List.Pairwise.nil
  | cons a t ih =>
      intro h
      cases t with
      | nil => simp
      | cons b u =>
          have h' : (decide (a < b) && strictIncr (b :: u)) = true := h
          rw [Bool.and_eq_true, decide_eq_true_eq] at h'
          have hp := ih h'.2
          refine List.Pairwise.cons ?_ hp
          intro x hx
          rcases List.mem_cons.mp hx with rfl | hxu
          · exact h'.1
          · exact lt_trans h'.1 ((List.pairwise_cons.mp hp).1 x hxu)

/-- On a list where the predicate can only turn off along the way, the kept
prefix is the whole satisfying set. -/
theorem length_takeWhile_eq_countP {α : Type} {p : α → Bool} :
    ∀ {l : List α}, l.Pairwise (fun x y => p y = true → p x = true) →
      (l.takeWhile p).length = l.countP p := by
  intro l
  induction l with
  | nil => intro _; rfl
  | cons a t ih =>
      intro h
      obtain ⟨ha, ht⟩ := List.pairwise_cons.mp h
      rw [List.takeWhile_cons, List.countP_cons]
      cases hpa : p a with
      | true =>
          rw [if_pos rfl, if_pos rfl, List.length_cons, ih ht]
      | false =>
          rw [if_neg (by simp), if_neg (by simp)]
          have h0 : t.countP p = 0 := by
            rw [List.countP_eq_zero]
            intro x hx hpx
            have hcontra := ha x hx hpx
            rw [hpa] at hcontra
            cases hcontra
          simp [h0]

/-- Counting `k < x` among `0, ..., n-1` yields `x` whenever `x ≤ n`. -/
theorem countP_range_lt : ∀ (n x : ℕ), x ≤ n →
    (List.range n).countP (fun k => decide (k < x)) = x := by
  intro n
  induction n with
  | zero =>
      intro x hx
      have hx0 : x = 0 := Nat.le_zero.mp hx
      subst hx0
      rfl
  | succ n ih =>
      intro x hx
      rw [List.range_succ, List.countP_append]
      by_cases hxn : x ≤ n
      · rw [ih x hxn]
        have h0 : List.countP (fun k => decide (k < x)) [n] = 0 := by
          simp [Nat.not_lt.mpr hxn]
        rw [h0]
        omega
      · have hx1 : x = n + 1 := by omega
        subst hx1
        have h1 : (List.range n).countP (fun k => decide (k < n + 1)) = n := by
          have hall : ∀ a ∈ List.range n, (fun k => decide (k < n + 1)) a = true := by
            intro a ha
            simp only [decide_eq_true_eq]
            have := List.mem_range.mp ha
            omega
          rw [List.countP_eq_length.mpr hall, List.length_range]
        have h2 : List.countP (fun k => decide (k < n + 1)) [n] = 1 := by
          simp
        rw [h1, h2]

/-- A count splits along any boolean test. -/
theorem countP_split {α : Type} (l : List α) (p q : α → Bool) :
    l.countP q = l.countP (fun a => p a && q a) + l.countP (fun a => !(p a) && q a) := by
  induction l with
  | nil => rfl
  | cons a t ih =>
      rw [List.countP_cons, List.countP_cons, List.countP_cons]
      cases hpa : p a <;> cases hqa : q a <;> simp [hpa, hqa] <;> omega

/-- A count over a list is the count over its index range. -/
theorem countP_eq_countP_range {α : Type} (d : α) :
    ∀ (l : List α) (p : α → Bool),
      l.countP p = (List.range l.length).countP (fun k => p (l.getD k d)) := by
  intro l
  induction l with
  | nil => intro _; rfl
  | cons a t ih =>
      intro p
      rw [List.countP_cons, List.length_cons, List.range_succ_eq_map, List.countP_cons,
        List.countP_map]
      have hcomp : ((fun k => p ((a :: t).getD k d)) ∘ Nat.succ) = fun k => p (t.getD k d) :=
        rfl
      rw [hcomp, ← ih]
      rfl

/-- `getD` ignores its default inside the bounds. -/
theorem getD_default_irrel {s : List ℚ} {k : ℕ} (hk : k < s.length) (d : ℚ) :
    s.getD k d = s.getD k 0 := by
  rw [List.getD_eq_getElem?_getD, List.getD_eq_getElem?_getD, List.getElem?_eq_getElem hk]
  simp

/-- Entries of a sorted list are monotone in the position. -/
theorem sorted_getD_le {s : List ℚ} (hs : List.Sorted (· ≤ ·) s) {k k' : ℕ}
    (hkk : k ≤ k') (hk' : k' < s.length) : s.getD k 0 ≤ s.getD k' 0 := by
  have hk : k < s.length := lt_of_le_of_lt hkk hk'
  have hgk : s.getD k 0 = s.get ⟨k, hk⟩ := by
    simp [List.getD_eq_getElem?_getD, List.getElem?_eq_getElem hk, List.get_eq_getElem]
  have hgk' : s.getD k' 0 = s.get ⟨k', hk'⟩ := by
    simp [List.getD_eq_getElem?_getD, List.getElem?_eq_getElem hk', List.get_eq_getElem]
  rw [hgk, hgk']
  refine hs.rel_get_of_le ?_
  rw [Fin.le_def]
  exact hkk

/-- In a duplicate-free sorted list the entries are strictly monotone in the
position. -/
theorem sorted_getD_lt {s : List ℚ} (hs : List.Sorted (· ≤ ·) s) (hnd : s.Nodup) {k k' : ℕ}
    (hkk : k < k') (hk' : k' < s.length) : s.getD k 0 < s.getD k' 0 := by
  have hk : k < s.length := lt_trans hkk hk'
  refine lt_of_le_of_ne (sorted_getD_le hs (le_of_lt hkk) hk') ?_
  intro heq
  rw [List.getD_eq_getElem?_getD, List.getElem?_eq_getElem hk,
      List.getD_eq_getElem?_getD, List.getElem?_eq_getElem hk'] at heq
  simp only [Option.getD_some] at heq
  have := (hnd.getElem_inj_iff).mp heq
  omega

/-- The interpolation weight of a decile cut is non-negative. -/
theorem quantileIdx_h_nonneg {n j : ℕ} (hn : 1 ≤ n) :
    (0 : ℚ) ≤ (j : ℚ) * ((n : ℚ) - 1) / 10 := by
  have h1 : (1 : ℚ) ≤ (n : ℚ) := by exact_mod_cast hn
  have hj : (0 : ℚ) ≤ (j : ℚ) := by positivity
  have hnn : (0 : ℚ) ≤ (n : ℚ) - 1 := by linarith
  exact div_nonneg (mul_nonneg hj hnn) (by norm_num)

/-- The cut position, cast back to `ℚ`, brackets the interpolation point. -/
theorem quantileIdx_cast_bounds {n j : ℕ} (hn : 1 ≤ n) :
    ((quantileIdx n j : ℕ) : ℚ) ≤ (j : ℚ) * ((n : ℚ) - 1) / 10 ∧
      (j : ℚ) * ((n : ℚ) - 1) / 10 < ((quantileIdx n j : ℕ) : ℚ) + 1 := by
  have h0 : (0 : ℚ) ≤ (j : ℚ) * ((n : ℚ) - 1) / 10 := quantileIdx_h_nonneg hn
  have hf0 : 0 ≤ ⌊(j : ℚ) * ((n : ℚ) - 1) / 10⌋ := Int.floor_nonneg.mpr h0
  have hcast : ((quantileIdx n j : ℕ) : ℚ) = ((⌊(j : ℚ) * ((n : ℚ) - 1) / 10⌋ : ℤ) : ℚ) := by
    unfold quantileIdx
    rw [← Int.cast_natCast, Int.toNat_of_nonneg hf0]
  constructor
  · rw [hcast]
    exact Int.floor_le _
  · rw [hcast]
    exact Int.lt_floor_add_one _

/-- The zeroth cut reads position 0. -/
theorem quantileIdx_zero (n : ℕ) : quantileIdx n 0 = 0 := by
  simp [quantileIdx]

/-- Cut positions are monotone in the probability. -/
theorem quantileIdx_mono {n j j' : ℕ} (h : j ≤ j') (hn : 1 ≤ n) :
    quantileIdx n j ≤ quantileIdx n j' := by
  unfold quantileIdx
  have h1 : (1 : ℚ) ≤ (n : ℚ) := by exact_mod_cast hn
  have hnn : (0 : ℚ) ≤ (n : ℚ) - 1 := by linarith
  have hj : (j : ℚ) ≤ (j' : ℚ) := by exact_mod_cast h
  have hh : (j : ℚ) * ((n : ℚ) - 1) / 10 ≤ (j' : ℚ) * ((n : ℚ) - 1) / 10 := by
    have := mul_le_mul_of_nonneg_right hj hnn
    linarith
  have := Int.floor_mono hh
  omega

/-- Every cut position stays inside the column. -/
theorem quantileIdx_le {n j : ℕ} (hn : 1 ≤ n) (hj : j ≤ 10) :
    quantileIdx n j ≤ n - 1 := by
  unfold quantileIdx
  have h1 : (1 : ℚ) ≤ (n : ℚ) := by exact_mod_cast hn
  have hnn : (0 : ℚ) ≤ (n : ℚ) - 1 := by linarith
  have hj' : (j : ℚ) ≤ 10 := by exact_mod_cast hj
  have hle : (j : ℚ) * ((n : ℚ) - 1) / 10 ≤ (n : ℚ) - 1 := by
    rw [div_le_iff₀ (by norm_num : (0 : ℚ) < 10)]
    nlinarith
  have hmono := Int.floor_mono hle
  have heq : ⌊(n : ℚ) - 1⌋ = (n : ℤ) - 1 := by
    rw [show ((n : ℚ) - 1) = (((n : ℤ) - 1 : ℤ) : ℚ) by push_cast; ring, Int.floor_intCast]
  omega

/-- Cuts below the top one leave room for one more sorted entry. -/
theorem quantileIdx_succ_lt {n j : ℕ} (hn : 2 ≤ n) (hj : j ≤ 9) :
    quantileIdx n j + 1 ≤ n - 1 := by
  unfold quantileIdx
  have h2 : (2 : ℚ) ≤ (n : ℚ) := by exact_mod_cast hn
  have hpos : (0 : ℚ) < (n : ℚ) - 1 := by linarith
  have hj' : (j : ℚ) ≤ 9 := by exact_mod_cast hj
  have hlt : (j : ℚ) * ((n : ℚ) - 1) / 10 < (n : ℚ) - 1 := by
    rw [div_lt_iff₀ (by norm_num : (0 : ℚ) < 10)]
    nlinarith
  have hfl : ⌊(j : ℚ) * ((n : ℚ) - 1) / 10⌋ < (n : ℤ) - 1 := by
    rw [Int.floor_lt]
    push_cast
    linarith
  omega

/-- The top cut reads the last sorted position. -/
theorem quantileIdx_ten {n : ℕ} (hn : 1 ≤ n) : quantileIdx n 10 = n - 1 := by
  unfold quantileIdx
  have h10 : ((10 : ℕ) : ℚ) * ((n : ℚ) - 1) / 10 = ((n - 1 : ℕ) : ℚ) := by
    push_cast [hn]
    ring
  rw [h10, Int.floor_natCast, Int.toNat_natCast]

/-- Consecutive cut positions advance by the first cut's position, up to one:
floor super- and sub-additivity of the arithmetic progression of cuts. -/
theorem quantileIdx_succ_bounds {n : ℕ} (i : ℕ) (hn : 1 ≤ n) :
    quantileIdx n i + quantileIdx n 1 ≤ quantileIdx n (i + 1) ∧
      quantileIdx n (i + 1) ≤ quantileIdx n i + quantileIdx n 1 + 1 := by
  have ha0 : (0 : ℚ) ≤ (i : ℚ) * ((n : ℚ) - 1) / 10 := quantileIdx_h_nonneg hn
  have hb0 : (0 : ℚ) ≤ ((1 : ℕ) : ℚ) * ((n : ℚ) - 1) / 10 := quantileIdx_h_nonneg hn
  have hsum : ((i + 1 : ℕ) : ℚ) * ((n : ℚ) - 1) / 10 =
      (i : ℚ) * ((n : ℚ) - 1) / 10 + ((1 : ℕ) : ℚ) * ((n : ℚ) - 1) / 10 := by
    push_cast
    ring
  have hlow : ⌊(i : ℚ) * ((n : ℚ) - 1) / 10⌋ + ⌊((1 : ℕ) : ℚ) * ((n : ℚ) - 1) / 10⌋ ≤
      ⌊((i + 1 : ℕ) : ℚ) * ((n : ℚ) - 1) / 10⌋ := by
    rw [hsum, Int.le_floor]
    push_cast
    have h1 := Int.floor_le ((i : ℚ) * ((n : ℚ) - 1) / 10)
    have h2 := Int.floor_le (((1 : ℕ) : ℚ) * ((n : ℚ) - 1) / 10)
    linarith
  have hhigh : ⌊((i + 1 : ℕ) : ℚ) * ((n : ℚ) - 1) / 10⌋ ≤
      ⌊(i : ℚ) * ((n : ℚ) - 1) / 10⌋ + ⌊((1 : ℕ) : ℚ) * ((n : ℚ) - 1) / 10⌋ + 1 := by
    have hlt : ((i + 1 : ℕ) : ℚ) * ((n : ℚ) - 1) / 10 <
        ((⌊(i : ℚ) * ((n : ℚ) - 1) / 10⌋ + ⌊((1 : ℕ) : ℚ) * ((n : ℚ) - 1) / 10⌋ + 2 : ℤ) : ℚ) := by
      rw [hsum]
      push_cast
      have h1 := Int.lt_floor_add_one ((i : ℚ) * ((n : ℚ) - 1) / 10)
      have h2 := Int.lt_floor_add_one (((1 : ℕ) : ℚ) * ((n : ℚ) - 1) / 10)
      linarith
    have := Int.floor_lt.mpr hlt
    omega
  have hfa : 0 ≤ ⌊(i : ℚ) * ((n : ℚ) - 1) / 10⌋ := Int.floor_nonneg.mpr ha0
  have hfb : 0 ≤ ⌊((1 : ℕ) : ℚ) * ((n : ℚ) - 1) / 10⌋ := Int.floor_nonneg.mpr hb0
  unfold quantileIdx
  omega

/-- On columns of at most one row, all interpolated cut values collapse. -/
theorem decileEdge_degenerate {s : List ℚ} (h : s.length ≤ 1) :
    decileEdge s 0 = decileEdge s 1 := by
  rcases s with _ | ⟨x, _ | ⟨y, t⟩⟩
  · decide
  · simp [decileEdge, quantileIdx]
  · simp at h

/-- Strictly increasing bin edges force at least two sorted rows. -/
theorem two_le_length_of_strictIncr {cfis : List ℚ}
    (hstr : strictIncr (qcutEdges cfis) = true) : 2 ≤ (sortAsc cfis).length := by
  by_contra hlt
  push_neg at hlt
  have hdeg : decileEdge (sortAsc cfis) 0 = decileEdge (sortAsc cfis) 1 :=
    decileEdge_degenerate (by omega)
  have hpw := strictIncr_pairwise hstr
  have hlen : (qcutEdges cfis).length = 11 := by simp [qcutEdges]
  have h01 : decileEdge (sortAsc cfis) 0 < decileEdge (sortAsc cfis) 1 := by
    have h := List.pairwise_iff_get.mp hpw ⟨0, by omega⟩ ⟨1, by omega⟩ (by simp [Fin.lt_def])
    simpa [qcutEdges, List.get_eq_getElem] using h
  linarith

/-- The cut value sits at or above the sorted entry at its cut position. -/
theorem decileEdge_lower {s : List ℚ} (hs : List.Sorted (· ≤ ·) s) {j : ℕ} (_hj : j ≤ 10)
    (hn : 2 ≤ s.length) : s.getD (quantileIdx s.length j) 0 ≤ decileEdge s j := by
  have hn1 : 1 ≤ s.length := by omega
  have hcb : ((quantileIdx s.length j : ℕ) : ℚ) ≤ (j : ℚ) * ((s.length : ℚ) - 1) / 10 ∧
      (j : ℚ) * ((s.length : ℚ) - 1) / 10 < ((quantileIdx s.length j : ℕ) : ℚ) + 1 :=
    quantileIdx_cast_bounds hn1
  have hf0 : 0 ≤ (j : ℚ) * ((s.length : ℚ) - 1) / 10 - ((quantileIdx s.length j : ℕ) : ℚ) := by
    linarith [hcb.1]
  have hd : 0 ≤ s.getD (quantileIdx s.length j + 1) (s.getD (quantileIdx s.length j) 0) -
      s.getD (quantileIdx s.length j) 0 := by
    by_cases hib : quantileIdx s.length j + 1 < s.length
    · rw [getD_default_irrel hib]
      have := sorted_getD_le hs (Nat.le_succ (quantileIdx s.length j)) hib
      linarith
    · have hoob : s.getD (quantileIdx s.length j + 1) (s.getD (quantileIdx s.length j) 0) =
          s.getD (quantileIdx s.length j) 0 := by
        rw [List.getD_eq_getElem?_getD]
        have hnone : s[quantileIdx s.length j + 1]? = none := by
          rw [List.getElem?_eq_none_iff]
          omega
        rw [hnone]
        rfl
      rw [hoob]
      simp
  simp only [decileEdge]
  have hmul := mul_nonneg hf0 hd
  linarith

/-- Below the top cut, the cut value stays strictly under the next sorted
entry — provided the column has no duplicates. -/
theorem decileEdge_upper {s : List ℚ} (hs : List.Sorted (· ≤ ·) s) (hnd : s.Nodup)
    {j : ℕ} (hj : j ≤ 9) (hn : 2 ≤ s.length) :
    decileEdge s j < s.getD (quantileIdx s.length j + 1) 0 := by
  have hn1 : 1 ≤ s.length := by omega
  have hib : quantileIdx s.length j + 1 < s.length := by
    have := quantileIdx_succ_lt hn hj
    omega
  have hlo_lt : s.getD (quantileIdx s.length j) 0 < s.getD (quantileIdx s.length j + 1) 0 :=
    sorted_getD_lt hs hnd (Nat.lt_succ_self _) hib
  have hcb : ((quantileIdx s.length j : ℕ) : ℚ) ≤ (j : ℚ) * ((s.length : ℚ) - 1) / 10 ∧
      (j : ℚ) * ((s.length : ℚ) - 1) / 10 < ((quantileIdx s.length j : ℕ) : ℚ) + 1 :=
    quantileIdx_cast_bounds hn1
  have hf0 : 0 ≤ (j : ℚ) * ((s.length : ℚ) - 1) / 10 - ((quantileIdx s.length j : ℕ) : ℚ) := by
    linarith [hcb.1]
  have hf1 : (j : ℚ) * ((s.length : ℚ) - 1) / 10 - ((quantileIdx s.length j : ℕ) : ℚ) < 1 := by
    linarith [hcb.2]
  simp only [decileEdge]
  rw [getD_default_irrel hib]
  have hkey := mul_lt_mul_of_pos_right hf1
    (show (0 : ℚ) < s.getD (quantileIdx s.length j + 1) 0 - s.getD (quantileIdx s.length j) 0
      from by linarith)
  have hmul := mul_nonneg hf0 (le_of_lt
    (show (0 : ℚ) < s.getD (quantileIdx s.length j + 1) 0 - s.getD (quantileIdx s.length j) 0
      from by linarith))
  nlinarith

/-- The pandas bin test against a cut value, evaluated at a sorted entry, is
decided purely by the positions: the cut at probability `j/10` lies strictly
below the entry at position `k` exactly when its cut position does. -/
theorem decileEdge_lt_getD_iff {s : List ℚ} (hs : List.Sorted (· ≤ ·) s) (hnd : s.Nodup)
    (hn : 2 ≤ s.length) {j k : ℕ} (hj : j ≤ 10) (hk : k < s.length) :
    (decileEdge s j < s.getD k 0) ↔ (quantileIdx s.length j < k) := by
  rcases Nat.lt_or_ge j 10 with hj9 | hj10
  · have hj9' : j ≤ 9 := by omega
    have hib : quantileIdx s.length j + 1 < s.length := by
      have := quantileIdx_succ_lt hn hj9'
      omega
    constructor
    · intro he
      by_contra hik
      push_neg at hik
      have hle : s.getD k 0 ≤ s.getD (quantileIdx s.length j) 0 :=
        sorted_getD_le hs hik (by omega)
      have hlow := decileEdge_lower hs hj hn
      linarith
    · intro hik
      have hup := decileEdge_upper hs hnd hj9' hn
      have hle : s.getD (quantileIdx s.length j + 1) 0 ≤ s.getD k 0 :=
        sorted_getD_le hs (by omega) hk
      linarith
  · have hj' : j = 10 := by omega
    subst hj'
    have hne : s ≠ [] := by
      intro h0
      rw [h0] at hn
      simp at hn
    rw [decileEdge_ten hne, quantileIdx_ten (by omega)]
    constructor
    · intro he
      have hle : s.getD k 0 ≤ s.getD (s.length - 1) 0 := sorted_getD_le hs (by omega) (by omega)
      linarith
    · intro hk'
      exact absurd hk' (by omega)

/-- The qcut bin of the sorted entry at position `k` counts the interior cut
positions strictly below `k`. -/
theorem qcutIndex_sorted_eq {cfis : List ℚ} (hnd : cfis.Nodup)
    (hstr : strictIncr (qcutEdges cfis) = true) {k : ℕ} (hk : k < (sortAsc cfis).length) :
    qcutIndex (qcutEdges cfis) ((sortAsc cfis).getD k 0) =
      (List.range 10).countP
        (fun t => decide (quantileIdx (sortAsc cfis).length (t + 1) < k)) := by
  have hs : List.Sorted (· ≤ ·) (sortAsc cfis) := List.sorted_insertionSort _ cfis
  have hnds : (sortAsc cfis).Nodup := ((List.perm_insertionSort _ cfis).nodup_iff).mpr hnd
  have hn2 : 2 ≤ (sortAsc cfis).length := two_le_length_of_strictIncr hstr
  have hpw := strictIncr_pairwise hstr
  have hpw' : (qcutEdges cfis).Pairwise
      (fun x y => (decide (y < (sortAsc cfis).getD k 0)) = true →
        (decide (x < (sortAsc cfis).getD k 0)) = true) := by
    refine hpw.imp ?_
    intro a b hab
    simp only [decide_eq_true_eq]
    intro hb
    exact lt_trans hab hb
  have htw : ((qcutEdges cfis).takeWhile
      (fun e => decide (e < (sortAsc cfis).getD k 0))).length =
      (qcutEdges cfis).countP (fun e => decide (e < (sortAsc cfis).getD k 0)) :=
    length_takeWhile_eq_countP hpw'
  have hcnt : (qcutEdges cfis).countP (fun e => decide (e < (sortAsc cfis).getD k 0)) =
      (List.range 11).countP
        (fun j => decide (quantileIdx (sortAsc cfis).length j < k)) := by
    unfold qcutEdges
    rw [List.countP_map]
    refine List.countP_congr ?_
    intro j hj
    have hj10 : j ≤ 10 := by
      have := List.mem_range.mp hj
      omega
    simp only [Function.comp_apply, decide_eq_true_eq]
    exact decileEdge_lt_getD_iff hs hnds hn2 hj10 hk
  have hsplit : (List.range 11).countP
      (fun j => decide (quantileIdx (sortAsc cfis).length j < k)) =
      (if 0 < k then 1 else 0) +
        (List.range 10).countP
          (fun t => decide (quantileIdx (sortAsc cfis).length (t + 1) < k)) := by
    rw [show (11 : ℕ) = 10 + 1 from rfl, List.range_succ_eq_map, List.countP_cons,
      List.countP_map]
    rw [quantileIdx_zero]
    have hcomp : ((fun j => decide (quantileIdx (sortAsc cfis).length j < k)) ∘ Nat.succ) =
        fun t => decide (quantileIdx (sortAsc cfis).length (t + 1) < k) := rfl
    rw [hcomp]
    rcases Nat.eq_zero_or_pos k with hk0 | hkpos
    · subst hk0
      simp
    · rw [if_pos hkpos]
      simp only [decide_eq_true_eq]
      rw [if_pos hkpos]
      omega
  unfold qcutIndex
  rw [htw, hcnt, hsplit]
  rcases Nat.eq_zero_or_pos k with hk0 | hkpos
  · subst hk0
    have hg0 : (List.range 10).countP
        (fun t => decide (quantileIdx (sortAsc cfis).length (t + 1) < 0)) = 0 := by
      rw [List.countP_eq_zero]
      intro t ht
      simp
    rw [hg0]
    simp
  · rw [if_pos hkpos]
    have hne : 1 + (List.range 10).countP
        (fun t => decide (quantileIdx (sortAsc cfis).length (t + 1) < k)) ≠ 0 := by
      omega
    rw [if_neg hne]
    omega

/-- The bottom bucket collects exactly the sorted positions up to the first
cut position. -/
theorem bucket_zero_iff {n k : ℕ} (hn : 1 ≤ n) :
    ((List.range 10).countP (fun t => decide (quantileIdx n (t + 1) < k)) = 0) ↔
      k ≤ quantileIdx n 1 := by
  rw [List.countP_eq_zero]
  constructor
  · intro h
    by_contra hlt
    push_neg at hlt
    exact (h 0 (by simp)) (decide_eq_true hlt)
  · intro hle t _
    simp only [decide_eq_true_eq]
    intro hq
    have hmono : quantileIdx n 1 ≤ quantileIdx n (t + 1) :=
      quantileIdx_mono (Nat.succ_le_succ (Nat.zero_le t)) hn
    omega

/-- A positive bucket index collects exactly the sorted positions strictly
between its cut position and the next one. -/
theorem bucket_pos_iff {n k i : ℕ} (hn : 1 ≤ n) (hi1 : 1 ≤ i) (hi9 : i ≤ 9) :
    ((List.range 10).countP (fun t => decide (quantileIdx n (t + 1) < k)) = i) ↔
      (quantileIdx n i < k ∧ k ≤ quantileIdx n (i + 1)) := by
  constructor
  · intro hg
    constructor
    · by_contra hik
      push_neg at hik
      have hbound : (List.range 10).countP (fun t => decide (quantileIdx n (t + 1) < k)) ≤
          (List.range 10).countP (fun t => decide (t < i - 1)) := by
        refine List.countP_mono_left ?_
        intro t _
        simp only [decide_eq_true_eq]
        intro hq
        by_contra htge
        push_neg at htge
        have : i ≤ t + 1 := by omega
        have := quantileIdx_mono this hn
        omega
      rw [countP_range_lt 10 (i - 1) (by omega)] at hbound
      omega
    · by_contra hik
      push_neg at hik
      have hbound : (List.range 10).countP (fun t => decide (t < i + 1)) ≤
          (List.range 10).countP (fun t => decide (quantileIdx n (t + 1) < k)) := by
        refine List.countP_mono_left ?_
        intro t _
        simp only [decide_eq_true_eq]
        intro htl
        have : t + 1 ≤ i + 1 := by omega
        have := quantileIdx_mono this hn
        omega
      rw [countP_range_lt 10 (i + 1) (by omega)] at hbound
      omega
  · intro hiv
    have hcong : ∀ t ∈ List.range 10,
        (decide (quantileIdx n (t + 1) < k)) = true ↔ (decide (t < i)) = true := by
      intro t _
      simp only [decide_eq_true_eq]
      constructor
      · intro hq
        by_contra htge
        push_neg at htge
        have : i + 1 ≤ t + 1 := by omega
        have := quantileIdx_mono this hn
        omega
      · intro hti
        have : t + 1 ≤ i := by omega
        have := quantileIdx_mono this hn
        omega
    rw [List.countP_congr hcong, countP_range_lt 10 i (by omega)]

/-- Counting the sorted positions inside one bucket's half-open window. -/
theorem countP_range_window {a b n : ℕ} (hab : a ≤ b) (hb : b < n) :
    (List.range n).countP (fun k => decide (a < k ∧ k ≤ b)) = b - a := by
  have hsplit := countP_split (List.range n) (fun k => decide (k ≤ a))
    (fun k => decide (k ≤ b))
  have hpq : (List.range n).countP
      (fun k => decide (k ≤ a) && decide (k ≤ b)) =
      (List.range n).countP (fun k => decide (k ≤ a)) := by
    refine List.countP_congr ?_
    intro x _
    simp only [Bool.and_eq_true, decide_eq_true_eq]
    constructor
    · intro hx
      exact hx.1
    · intro hx
      exact ⟨hx, le_trans hx hab⟩
  have hwin : (List.range n).countP (fun k => decide (a < k ∧ k ≤ b)) =
      (List.range n).countP (fun k => !(decide (k ≤ a)) && decide (k ≤ b)) := by
    refine List.countP_congr ?_
    intro x _
    simp only [Bool.and_eq_true, Bool.not_eq_true', decide_eq_false_iff_not,
      decide_eq_true_eq]
    omega
  have hca : (List.range n).countP (fun k => decide (k ≤ a)) = a + 1 := by
    have hcong : ∀ x ∈ List.range n, (decide (x ≤ a)) = true ↔ (decide (x < a + 1)) = true := by
      intro x _
      simp only [decide_eq_true_eq]
      omega
    rw [List.countP_congr hcong, countP_range_lt n (a + 1) (by omega)]
  have hcb : (List.range n).countP (fun k => decide (k ≤ b)) = b + 1 := by
    have hcong : ∀ x ∈ List.range n, (decide (x ≤ b)) = true ↔ (decide (x < b + 1)) = true := by
      intro x _
      simp only [decide_eq_true_eq]
      omega
    rw [List.countP_congr hcong, countP_range_lt n (b + 1) (by omega)]
  omega

/-- Counterexample to C5 as stated: on `dfC5` (ten rows, all with CFI 0)
every quantile bin edge coincides, `pd.qcut` raises `ValueError`, and no row
receives a decile — `compute_cfi` returns the error branch, not a frame. -/
theorem claim_C5_counterexample :
    compute_cfi dfC5 = Except.error "Bin edges must be unique" ∧ dfC5.length = 10 :=
  ⟨rfl, rfl⟩

/-- The size of each of the ten decile buckets, on a tie-free CFI column
that `pd.qcut` accepts, lies between the first cut position and that
position plus one. -/
theorem decile_count_mem {df : List NormRow} {out : List CfiRow}
    (h : compute_cfi df = Except.ok out) (hnd : (df.map cfiVal).Nodup)
    {d : ℕ} (hd1 : 1 ≤ d) (hd10 : d ≤ 10) :
    quantileIdx df.length 1 ≤ out.countP (fun r => decide (r.CFI_decile = d)) ∧
      out.countP (fun r => decide (r.CFI_decile = d)) ≤ quantileIdx df.length 1 + 1 := by
  obtain ⟨he, hstr⟩ := compute_cfi_ok_eq h
  subst he
  have hlen : (sortAsc (df.map cfiVal)).length = df.length := by
    simp only [sortAsc]
    rw [(List.perm_insertionSort (· ≤ ·) (df.map cfiVal)).length_eq, List.length_map]
  have hn2 : 2 ≤ (sortAsc (df.map cfiVal)).length := two_le_length_of_strictIncr hstr
  have hn1 : 1 ≤ (sortAsc (df.map cfiVal)).length := by omega
  rw [← hlen]
  have h1 : (df.map (cfiAnnotate (df.map cfiVal) (qcutEdges (df.map cfiVal)))).countP
      (fun r => decide (r.CFI_decile = d)) =
      (df.map cfiVal).countP
        (fun v => decide (qcutIndex (qcutEdges (df.map cfiVal)) v + 1 = d)) := by
    rw [List.countP_map, List.countP_map]
    rfl
  have h2 : (df.map cfiVal).countP
      (fun v => decide (qcutIndex (qcutEdges (df.map cfiVal)) v + 1 = d)) =
      (sortAsc (df.map cfiVal)).countP
        (fun v => decide (qcutIndex (qcutEdges (df.map cfiVal)) v + 1 = d)) :=
    ((List.perm_insertionSort (· ≤ ·) (df.map cfiVal)).countP_eq _).symm
  have h3 : (sortAsc (df.map cfiVal)).countP
      (fun v => decide (qcutIndex (qcutEdges (df.map cfiVal)) v + 1 = d)) =
      (List.range (sortAsc (df.map cfiVal)).length).countP
        (fun k => decide
          (qcutIndex (qcutEdges (df.map cfiVal)) ((sortAsc (df.map cfiVal)).getD k 0) + 1 = d)) :=
    countP_eq_countP_range 0 (sortAsc (df.map cfiVal)) _
  have h4 : (List.range (sortAsc (df.map cfiVal)).length).countP
      (fun k => decide
        (qcutIndex (qcutEdges (df.map cfiVal)) ((sortAsc (df.map cfiVal)).getD k 0) + 1 = d)) =
      (List.range (sortAsc (df.map cfiVal)).length).countP
        (fun k => decide ((List.range 10).countP
          (fun t => decide (quantileIdx (sortAsc (df.map cfiVal)).length (t + 1) < k)) + 1 = d)) := by
    refine List.countP_congr ?_
    intro k hk
    have hk' : k < (sortAsc (df.map cfiVal)).length := List.mem_range.mp hk
    simp only [decide_eq_true_eq]
    rw [qcutIndex_sorted_eq hnd hstr hk']
  rw [h1, h2, h3, h4]
  by_cases hd : d = 1
  · subst hd
    have h5 : (List.range (sortAsc (df.map cfiVal)).length).countP
        (fun k => decide ((List.range 10).countP
          (fun t => decide (quantileIdx (sortAsc (df.map cfiVal)).length (t + 1) < k)) + 1 = 1)) =
        (List.range (sortAsc (df.map cfiVal)).length).countP
          (fun k => decide (k < quantileIdx (sortAsc (df.map cfiVal)).length 1 + 1)) := by
      refine List.countP_congr ?_
      intro k _
      simp only [decide_eq_true_eq]
      rw [show ((List.range 10).countP
          (fun t => decide (quantileIdx (sortAsc (df.map cfiVal)).length (t + 1) < k)) + 1 = 1) ↔
          ((List.range 10).countP
          (fun t => decide (quantileIdx (sortAsc (df.map cfiVal)).length (t + 1) < k)) = 0)
        from by omega]
      rw [bucket_zero_iff hn1]
      omega
    rw [h5, countP_range_lt]
    · omega
    · have := quantileIdx_succ_lt hn2 (by omega : 1 ≤ 9)
      omega
  · have hd2 : 2 ≤ d := by omega
    have hmono : quantileIdx (sortAsc (df.map cfiVal)).length (d - 1) ≤
        quantileIdx (sortAsc (df.map cfiVal)).length d :=
      quantileIdx_mono (by omega) hn1
    have hdlt : quantileIdx (sortAsc (df.map cfiVal)).length d <
        (sortAsc (df.map cfiVal)).length := by
      have := quantileIdx_le hn1 hd10
      omega
    have h5 : (List.range (sortAsc (df.map cfiVal)).length).countP
        (fun k => decide ((List.range 10).countP
          (fun t => decide (quantileIdx (sortAsc (df.map cfiVal)).length (t + 1) < k)) + 1 = d)) =
        (List.range (sortAsc (df.map cfiVal)).length).countP
          (fun k => decide (quantileIdx (sortAsc (df.map cfiVal)).length (d - 1) < k ∧
            k ≤ quantileIdx (sortAsc (df.map cfiVal)).length d)) := by
      refine List.countP_congr ?_
      intro k _
      simp only [decide_eq_true_eq]
      rw [show ((List.range 10).countP
          (fun t => decide (quantileIdx (sortAsc (df.map cfiVal)).length (t + 1) < k)) + 1 = d) ↔
          ((List.range 10).countP
          (fun t => decide (quantileIdx (sortAsc (df.map cfiVal)).length (t + 1) < k)) = d - 1)
        from by omega]
      rw [bucket_pos_iff hn1 (by omega) (by omega)]
      rw [show d - 1 + 1 = d from by omega]
    rw [h5, countP_range_window hmono hdlt]
    have hb := quantileIdx_succ_bounds (d - 1) hn1
    rw [show d - 1 + 1 = d from by omega] at hb
    omega

/-- Claim C5 (amended): when `pd.qcut` succeeds — that is, when the 11
quantile cut points of the CFI column are pairwise distinct — every row of
the frame receives exactly one decile label among 1..10, distributing the
full ranked set over the ten labeled buckets; and on a tie-free CFI column
any two bucket sizes differ by at most one (small frames leave some buckets
empty, still within that bound).  When cut points coincide — a heavily tied
CFI column — `pd.qcut` raises `ValueError` instead and no decile is
assigned, which is also the only tied case the size clause must survive. -/
theorem claim_C5 (df : List NormRow) (out : List CfiRow)
    (h : compute_cfi df = Except.ok out) :
    (out.length = df.length ∧ ∀ r ∈ out, 1 ≤ r.CFI_decile ∧ r.CFI_decile ≤ 10) ∧
    ((df.map cfiVal).Nodup → ∀ d₁ d₂ : ℕ, 1 ≤ d₁ → d₁ ≤ 10 → 1 ≤ d₂ → d₂ ≤ 10 →
      out.countP (fun r => decide (r.CFI_decile = d₁)) ≤
        out.countP (fun r => decide (r.CFI_decile = d₂)) + 1) := by
  constructor
  · obtain ⟨he, -⟩ := compute_cfi_ok_eq h
    subst he
    refine ⟨List.length_map _ _, ?_⟩
    intro r hr
    rcases List.mem_map.mp hr with ⟨a, ha, rfl⟩
    have hv : cfiVal a ∈ df.map cfiVal := List.mem_map_of_mem _ ha
    exact ⟨Nat.succ_le_succ (Nat.zero_le _), Nat.succ_le_succ (qcutIndex_le_nine hv)⟩
  · intro hnd d₁ d₂ h11 h110 h21 h210
    have hb1 := decile_count_mem h hnd h11 h110
    have hb2 := decile_count_mem h hnd h21 h210
    omega

/-- Witness for C5 (amended) at the example frame: all four rows get a
decile, and the bucket of label 10 is at most one larger than the bucket of
label 1. -/
theorem claim_C5_witness :
    (exCfi.length = exNorm.length ∧ ∀ r ∈ exCfi, 1 ≤ r.CFI_decile ∧ r.CFI_decile ≤ 10) ∧
      exCfi.countP (fun r => decide (r.CFI_decile = 10)) ≤
        exCfi.countP (fun r => decide (r.CFI_decile = 1)) + 1 :=
  ⟨(claim_C5 exNorm exCfi rfl).1,
    (claim_C5 exNorm exCfi rfl).2 (by decide) 10 1 (by decide) (by decide) (by decide)
      (by decide)⟩

/-- Counting: two disjoint predicates that both imply a third are jointly
outnumbered by it. -/
theorem countP_disjoint_add_le {α : Type} (l : List α) (p q r : α → Bool)
    (hd : ∀ a ∈ l, ¬(p a = true ∧ q a = true))
    (hp : ∀ a ∈ l, p a = true → r a = true)
    (hq : ∀ a ∈ l, q a = true → r a = true) :
    l.countP p + l.countP q ≤ l.countP r := by
  induction l with
  | nil => simp
  | cons a t ih =>
      have ih' := ih (fun x hx => hd x (List.mem_cons_of_mem a hx))
        (fun x hx => hp x (List.mem_cons_of_mem a hx))
        (fun x hx => hq x (List.mem_cons_of_mem a hx))
      rw [List.countP_cons, List.countP_cons, List.countP_cons]
      cases hpa : p a with
      | true =>
          have hqa : q a = false := by
            cases hqb : q a with
            | false => rfl
            | true => exact absurd ⟨hpa, hqb⟩ (hd a (List.mem_cons_self a t))
          have hra : r a = true := hp a (List.mem_cons_self a t) hpa
          simp [hqa, hra]
          omega
      | false =>
          cases hqa : q a with
          | true =>
              have hra : r a = true := hq a (List.mem_cons_self a t) hqa
              simp [hra]
              omega
          | false =>
              simp
              split <;> omega

/-- Strict monotonicity of pandas descending average ranks: a member with a
strictly larger value gets a strictly smaller rank. -/
theorem rankDesc_lt {xs : List ℚ} {v₁ v₂ : ℚ} (h1 : v₁ ∈ xs) (hlt : v₂ < v₁) :
    rankDesc xs v₁ < rankDesc xs v₂ := by
  have hT1 : 0 < xs.countP (fun x => decide (x = v₁)) :=
    List.countP_pos_iff.mpr ⟨v₁, h1, by simp⟩
  have hA : xs.countP (fun x => decide (v₁ < x)) + xs.countP (fun x => decide (x = v₁)) ≤
      xs.countP (fun x => decide (v₂ < x)) := by
    refine countP_disjoint_add_le xs _ _ _ ?_ ?_ ?_
    · intro a _ hc
      simp only [decide_eq_true_eq] at hc
      exact absurd hc.1 (by rw [hc.2]; exact lt_irrefl v₁)
    · intro a _ hc
      simp only [decide_eq_true_eq] at hc ⊢
      exact lt_trans hlt hc
    · intro a _ hc
      simp only [decide_eq_true_eq] at hc ⊢
      rw [hc]
      exact hlt
  unfold rankDesc
  have hAq : ((xs.countP (fun x => decide (v₁ < x)) : ℚ)) +
      (xs.countP (fun x => decide (x = v₁)) : ℚ) ≤
      (xs.countP (fun x => decide (v₂ < x)) : ℚ) := by
    exact_mod_cast hA
  have hT1q : (1 : ℚ) ≤ (xs.countP (fun x => decide (x = v₁)) : ℚ) := by
    exact_mod_cast hT1
  have hT2q : (0 : ℚ) ≤ (xs.countP (fun x => decide (x = v₂)) : ℚ) := by
    exact_mod_cast Nat.zero_le _
  linarith

/-- Counterexample to C4 as stated: `compute_cfi` succeeds on the 21-row
frame `dfC4`, where the two distinct countries `c5` and `c6` have the same
CFI value and therefore receive the same average rank (31/2) — the rank
column is not a strict ordering of the rows. -/
theorem claim_C4_counterexample :
    compute_cfi dfC4 = Except.ok (cfiRows dfC4) ∧
      ((cfiRows dfC4).getD 5 crow0).country ≠ ((cfiRows dfC4).getD 6 crow0).country ∧
      ((cfiRows dfC4).getD 5 crow0).CFI_rank = ((cfiRows dfC4).getD 6 crow0).CFI_rank :=
  ⟨rfl, by decide, by decide⟩

/-- Claim C4 (amended): on every frame `compute_cfi` accepts, a row with a
strictly higher CFI score receives a strictly numerically lower (better)
rank, and rows with equal CFI scores receive equal (average) ranks — so the
rank column orders rows strictly only up to ties. -/
theorem claim_C4 (df : List NormRow) (out : List CfiRow) (i j : ℕ)
    (hout : compute_cfi df = Except.ok out)
    (hi : i < out.length) (hj : j < out.length) :
    ((out.get ⟨j, hj⟩).CFI < (out.get ⟨i, hi⟩).CFI →
      (out.get ⟨i, hi⟩).CFI_rank < (out.get ⟨j, hj⟩).CFI_rank) ∧
    ((out.get ⟨i, hi⟩).CFI = (out.get ⟨j, hj⟩).CFI →
      (out.get ⟨i, hi⟩).CFI_rank = (out.get ⟨j, hj⟩).CFI_rank) := by
  obtain ⟨he, -⟩ := compute_cfi_ok_eq hout
  subst he
  have hi' : i < df.length := by simpa using hi
  have hj' : j < df.length := by simpa using hj
  constructor
  · intro hlt
    simp only [List.get_eq_getElem, List.getElem_map] at hlt ⊢
    have hlt' : cfiVal (df.get ⟨j, hj'⟩) < cfiVal (df.get ⟨i, hi'⟩) := hlt
    have hmem : cfiVal (df.get ⟨i, hi'⟩) ∈ df.map cfiVal :=
      List.mem_map_of_mem _ (df.get_mem _ _)
    exact rankDesc_lt hmem hlt'
  · intro heq
    simp only [List.get_eq_getElem, List.getElem_map] at heq ⊢
    have heq' : cfiVal (df.get ⟨i, hi'⟩) = cfiVal (df.get ⟨j, hj'⟩) := heq
    have hgoal : rankDesc (df.map cfiVal) (cfiVal (df.get ⟨i, hi'⟩)) =
        rankDesc (df.map cfiVal) (cfiVal (df.get ⟨j, hj'⟩)) := by rw [heq']
    exact hgoal

/-- Witness for C4 (amended) at the example frame: row 0 outscores row 1 and
outranks it. -/
theorem claim_C4_witness :
    (exCfi.get ⟨1, by decide⟩).CFI < (exCfi.get ⟨0, by decide⟩).CFI ∧
      (exCfi.get ⟨0, by decide⟩).CFI_rank < (exCfi.get ⟨1, by decide⟩).CFI_rank :=
  ⟨by decide,
    (claim_C4 exNorm exCfi 0 1 rfl (by decide) (by decide)).1 (by decide)⟩

/-- With pairwise distinct join keys on the right, a key matches at most one
right row. -/
theorem filter_key_length_le_one {β : Type} {B : List (String × β)}
    (hB : (B.map Prod.fst).Nodup) (c : String) :
    (B.filter (fun b => decide (b.1 = c))).length ≤ 1 := by
  induction B with
  | nil => simp
  | cons b t ih =>
      rw [List.map_cons] at hB
      have hb := (List.nodup_cons.mp hB).1
      have ht := (List.nodup_cons.mp hB).2
      rw [List.filter_cons]
      by_cases hc : b.1 = c
      · rw [if_pos (by simp [hc])]
        have hnil : t.filter (fun x => decide (x.1 = c)) = [] := by
          refine List.filter_eq_nil_iff.mpr ?_
          intro x hx
          simp only [decide_eq_true_eq]
          intro hxc
          refine hb ?_
          rw [hc, ← hxc]
          exact List.mem_map_of_mem Prod.fst hx
        simp [hnil]
      · rw [if_neg (by simp [hc])]
        exact ih ht

/-- If each seed contributes a mapped block that is a sublist of its own
singleton, the flattened map is a sublist of the seeds' image. -/
theorem flatMap_map_sublist {α β γ : Type} (A : List α) (f : α → List β) (g : β → γ)
    (k : α → γ) (h : ∀ a ∈ A, ((f a).map g).Sublist [k a]) :
    ((A.flatMap f).map g).Sublist (A.map k) := by
  induction A with
  | nil => simp
  | cons a t ih =>
      rw [List.flatMap_cons, List.map_append, List.map_cons]
      exact List.Sublist.append (h a (List.mem_cons_self a t))
        (ih (fun x hx => h x (List.mem_cons_of_mem a hx)))

/-- With pairwise distinct keys on the right, the merged keys are a sublist
of the left keys: the inner join cannot duplicate a left row. -/
theorem pdMerge_fst_sublist {α β : Type} (A : List (String × α)) (B : List (String × β))
    (hB : (B.map Prod.fst).Nodup) :
    ((pdMerge A B).map Prod.fst).Sublist (A.map Prod.fst) := by
  unfold pdMerge
  refine flatMap_map_sublist A _ Prod.fst Prod.fst ?_
  intro a ha
  rw [List.map_map]
  have hlen := filter_key_length_le_one hB a.1
  rcases hfil : B.filter (fun b => decide (b.1 = a.1)) with _ | ⟨b, t⟩
  · rw [hfil]
    simp
  · rw [hfil] at hlen
    simp only [List.length_cons] at hlen
    have ht : t = [] := List.length_eq_zero.mp (by omega)
    subst ht
    rw [hfil]
    show ([a.1]).Sublist [a.1]
    exact List.Sublist.refl _

/-- A filter-map projected through a field that the kept part preserves is a
sublist of the source's projection. -/
theorem filterMap_map_sublist {α β γ : Type} (l : List α) (f : α → Option β) (g : β → γ)
    (k : α → γ) (hfg : ∀ x m, f x = some m → g m = k x) :
    ((l.filterMap f).map g).Sublist (l.map k) := by
  induction l with
  | nil => simp
  | cons x t ih =>
      rcases hfx : f x with _ | m
      · rw [List.filterMap_cons_none hfx, List.map_cons]
        exact ih.trans (List.sublist_cons_self _ _)
      · rw [List.filterMap_cons_some hfx, List.map_cons, List.map_cons, hfg x m hfx]
        exact ih.cons₂ _

/-- The countries surviving `dropna` are a sublist of the merged keys. -/
theorem dropna_country_sublist (l : List (String × (Option ℚ × Option ℚ) × Option ℚ)) :
    ((dropna l).map MergedRow.country).Sublist (l.map Prod.fst) := by
  refine filterMap_map_sublist l _ MergedRow.country Prod.fst ?_
  intro x m hx
  obtain ⟨c, ⟨oa, ob⟩, od⟩ := x
  cases oa <;> cases ob <;> cases od <;> simp_all
  rw [← hx]

/-- Membership in an inner merge projects to membership in both inputs with
the shared key. -/
theorem mem_pdMerge {α β : Type} {A : List (String × α)} {B : List (String × β)}
    {c : String} {a : α} {b : β} (h : (c, a, b) ∈ pdMerge A B) :
    (c, a) ∈ A ∧ (c, b) ∈ B := by
  unfold pdMerge at h
  rcases List.mem_flatMap.mp h with ⟨x, hxA, hx⟩
  rcases List.mem_map.mp hx with ⟨y, hyB, hy⟩
  rcases List.mem_filter.mp hyB with ⟨hyB', hy1⟩
  obtain ⟨x1, x2⟩ := x
  obtain ⟨y1, y2⟩ := y
  simp only [Prod.mk.injEq] at hy
  obtain ⟨rfl, rfl, rfl⟩ := hy
  simp only [decide_eq_true_eq] at hy1
  subst hy1
  exact ⟨hxA, hyB'⟩

/-- Counterexample to C6 as stated: when the CO2 input holds two rows for
country `A` in the selected year, the inner merge duplicates that country —
`load_and_merge` returns two records for `A`, not at most one. -/
theorem claim_C6_counterexample :
    ((load_and_merge c6co2 c6pov c6rev none).1.map MergedRow.country) = ["A", "A"] ∧
      ¬((load_and_merge c6co2 c6pov c6rev none).1.map MergedRow.country).Nodup :=
  ⟨rfl, by decide⟩

/-- Claim C6 (amended): provided each input dataset holds at most one row per
country for the selected year (pairwise distinct country keys after the year
filter), the merged frame holds at most one record per country; and
unconditionally, every merged record carries all three source indicators —
each was present (non-missing) in its year-filtered source, rows with any
missing indicator having been dropped. -/
theorem claim_C6 (co2 poverty revenue : List RawRecord) (ly : Option ℤ)
    (hco2 : ((filterYear co2 (selectedYear co2 poverty revenue ly)).map Prod.fst).Nodup)
    (hpov : ((filterYear poverty (selectedYear co2 poverty revenue ly)).map Prod.fst).Nodup)
    (hrev : ((filterYear revenue (selectedYear co2 poverty revenue ly)).map Prod.fst).Nodup) :
    ((load_and_merge co2 poverty revenue ly).1.map MergedRow.country).Nodup ∧
    ∀ m ∈ (load_and_merge co2 poverty revenue ly).1,
      (m.country, some m.co2_per_capita) ∈
        filterYear co2 (selectedYear co2 poverty revenue ly) ∧
      (m.country, some m.extreme_poverty_share) ∈
        filterYear poverty (selectedYear co2 poverty revenue ly) ∧
      (m.country, some m.revenue_gap_pct) ∈
        filterYear revenue (selectedYear co2 poverty revenue ly) := by
  constructor
  · have h1 := pdMerge_fst_sublist (filterYear co2 (selectedYear co2 poverty revenue ly))
      (filterYear poverty (selectedYear co2 poverty revenue ly)) hpov
    have h2 := pdMerge_fst_sublist
      (pdMerge (filterYear co2 (selectedYear co2 poverty revenue ly))
        (filterYear poverty (selectedYear co2 poverty revenue ly)))
      (filterYear revenue (selectedYear co2 poverty revenue ly)) hrev
    have h3 := dropna_country_sublist
      (pdMerge (pdMerge (filterYear co2 (selectedYear co2 poverty revenue ly))
        (filterYear poverty (selectedYear co2 poverty revenue ly)))
        (filterYear revenue (selectedYear co2 poverty revenue ly)))
    exact ((h3.trans h2).trans h1).nodup hco2
  · intro m hm
    have hm' : m ∈ dropna (pdMerge (pdMerge
        (filterYear co2 (selectedYear co2 poverty revenue ly))
        (filterYear poverty (selectedYear co2 poverty revenue ly)))
        (filterYear revenue (selectedYear co2 poverty revenue ly))) := hm
    rcases List.mem_filterMap.mp hm' with ⟨x, hx, hfx⟩
    obtain ⟨c, ⟨oa, ob⟩, od⟩ := x
    rcases oa with _ | a
    · simp at hfx
    rcases ob with _ | b
    · simp at hfx
    rcases od with _ | d
    · simp at hfx
    simp only [Option.some.injEq] at hfx
    subst hfx
    obtain ⟨hAB, hC⟩ := mem_pdMerge hx
    obtain ⟨hA, hB⟩ := mem_pdMerge hAB
    exact ⟨hA, hB, hC⟩

/-- Witness for C6 (amended): the example inputs have one row per country, so
the merged countries are pairwise distinct. -/
theorem claim_C6_witness :
    ((load_and_merge exCo2 exPov exRev none).1.map MergedRow.country).Nodup :=
  (claim_C6 exCo2 exPov exRev none (by decide) (by decide) (by decide)).1

end ClimateFairness
